import Mathlib

/-!
Verification of the Pineapple OFC client placement logic.

The repository contains the client of a Pineapple Open-Face-Chinese poker
game.  Its core logic is the round placement state machine: a ledger of
pending card-index-to-destination assignments, mutated by user gestures and
validated before submission.  Two files hold three variants of this machine:

* `src/unnamed/part_000` — the drag-to-rows variant.  State is
  `boardPlacements = { front: [idx], middle: [idx], back: [idx] }` (lists of
  hand-card indices).  `placeCardOnRow` checks row capacity (committed server
  board plus current placements) before placing; the discard on a draw turn is
  implicit: the single unplaced card is materialised as `discard` when the
  play is submitted.  Embedded below in namespace `Rows`.

* `src/src/web/static/game.js` — two variants (zones drag-and-drop and
  button pickers) sharing the same ledger shape: `assignments`, a map from
  card index to zone name; `moveCard` / `assignCard` write the map
  unconditionally and validation happens only in `validateAssignments` /
  `updateConfirmButton`.  Embedded below in namespace `Zones` (the two
  variants differ only in hint wording and DOM wiring; the zones half is the
  one embedded, with `moveCard` as the mutator).
-/

namespace OFC

/-- A board row: `front`, `middle` or `back` (the keys of `boardPlacements`
and of the server board). -/
inductive Row
  | front
  | middle
  | back
deriving DecidableEq, Repr

/-- A destination zone: one of the three rows or the discard
(the strings `front`, `middle`, `back`, `discard` used as assignment values). -/
inductive Dest
  | front
  | middle
  | back
  | discard
deriving DecidableEq, Repr

namespace Rows

/-- The `boardPlacements` object of the rows variant: the list of hand-card
indices placed on each row this round. -/
structure Plc where
  front : List Nat
  middle : List Nat
  back : List Nat
deriving DecidableEq, Repr

/-- Row selection `boardPlacements[row]`. -/
def rowList (s : Plc) : Row → List Nat
  | .front => s.front
  | .middle => s.middle
  | .back => s.back

/-- Functional update of one row of `boardPlacements`. -/
def setRowList (s : Plc) (r : Row) (l : List Nat) : Plc :=
  match r with
  | .front => { s with front := l }
  | .middle => { s with middle := l }
  | .back => { s with back := l }

/-- Row capacity: `const max = row === 'front' ? 3 : 5`. -/
def rowCap : Row → Nat
  | .front => 3
  | _ => 5

/-- Capitalised row name, `row.charAt(0).toUpperCase() + row.slice(1)`. -/
def capitalRowName : Row → String
  | .front => "Front"
  | .middle => "Middle"
  | .back => "Back"

/-- The hint emitted when a row is full. -/
def rowFullHint (r : Row) : String :=
  capitalRowName r ++ " row is full."

/-- `removeFromPlacements(idx)`: filter `idx` out of every row list. -/
def removeFromPlacements (s : Plc) (idx : Nat) : Plc :=
  { front := s.front.filter (fun i => i != idx)
    middle := s.middle.filter (fun i => i != idx)
    back := s.back.filter (fun i => i != idx) }

/-- `placeCardOnRow(idx, row)`: if the committed server-board cards in the row
plus the current placements already reach the row capacity, reject and set the
row-full hint, leaving the placements unchanged; otherwise remove `idx` from
wherever it was and push it onto the row.  The server board enters only
through the per-row count of committed cards
(`(currentServerBoard[row] || []).length`), modelled as `board : Row → Nat`.
Returns the new placements and the hint set on rejection (`none` on success,
where the code instead refreshes the whole UI). -/
def placeCardOnRow (board : Row → Nat) (s : Plc) (idx : Nat) (row : Row) :
    Plc × Option String :=
  let existing := board row
  let current := (rowList s row).length
  if rowCap row ≤ existing + current then
    (s, some (rowFullHint row))
  else
    let rem := removeFromPlacements s idx
    (setRowList rem row (rowList rem row ++ [idx]), none)

/-- `returnCardToHand(idx)`: just `removeFromPlacements(idx)`. -/
def returnCardToHand (s : Plc) (idx : Nat) : Plc :=
  removeFromPlacements s idx

/-- `getAllPlacedIndices()`: the set of indices placed on any row (the code
builds a `Set` from the three lists; only membership is used, so the
concatenation serves as the embedding). -/
def getAllPlacedIndices (s : Plc) : List Nat :=
  s.front ++ s.middle ++ s.back

/-- Total number of placed cards,
`boardPlacements.front.length + middle.length + back.length`. -/
def totalPlaced (s : Plc) : Nat :=
  s.front.length + s.middle.length + s.back.length

/-- `required = isInitial ? currentCards.length : currentCards.length - 1`
(JavaScript number arithmetic, hence `Int`). -/
def requiredCount (isInitial : Bool) (handSize : Nat) : Int :=
  if isInitial then (handSize : Int) else (handSize : Int) - 1

/-- The confirm-button enablement computed by `updateConfirmButton`:
`$('btn-confirm').disabled = (totalPlaced !== required)`, i.e. the button is
enabled exactly when `totalPlaced === required`.  (The `isActionMode` guard is
true throughout the placing phase modelled here.) -/
def confirmEnabled (isInitial : Bool) (handSize : Nat) (s : Plc) : Bool :=
  (totalPlaced s : Int) == requiredCount isInitial handSize

/-- The text of the place-more hint. -/
def placeMoreText (k : Int) : String :=
  "Place " ++ toString k ++ " more card" ++ (if 1 < k then "s" else "") ++ "."

/-- The hint set by `updateConfirmButton`: on a draw turn, a place-more
message while more than one card is unplaced, the auto-discard notice when
exactly one is unplaced, empty otherwise; on the opening turn, a place-more
message while any card is unplaced, empty otherwise. -/
def hintText (isInitial : Bool) (handSize : Nat) (s : Plc) : String :=
  if isInitial then
    let unplaced : Int := (handSize : Int) - totalPlaced s
    if 0 < unplaced then placeMoreText unplaced else ""
  else
    let unplaced : Int := (handSize : Int) - totalPlaced s
    if 1 < unplaced then
      placeMoreText (requiredCount false handSize - totalPlaced s)
    else if unplaced = 1 then "The last card will be automatically discarded."
    else ""

/-- The row part of the placements list built at the top of `submitPlay()`:
for each row in order front, middle, back, a `(card_idx, row)` pair per
placed index. -/
def submitBase (s : Plc) : List (Nat × Dest) :=
  s.front.map (fun i => (i, Dest.front)) ++
    s.middle.map (fun i => (i, Dest.middle)) ++
      s.back.map (fun i => (i, Dest.back))

/-- The full placements list of `submitPlay()`: the row placements; then, on
a draw turn, the first hand index not placed anywhere is appended with row
`discard` (the `for … break` auto-discard loop). -/
def submitPlacements (isInitial : Bool) (handSize : Nat) (s : Plc) :
    List (Nat × Dest) :=
  if isInitial then submitBase s
  else
    match (List.range handSize).find?
        (fun i => !((getAllPlacedIndices s).contains i)) with
    | some i => submitBase s ++ [(i, Dest.discard)]
    | none => submitBase s

/-- States of `boardPlacements` reachable from the empty ledger installed by
`applyState` at the start of a turn, through the two mutators.  Placement
gestures carry the index of a dealt hand card, so `placeCardOnRow` is only
ever invoked with an in-range index. -/
inductive Reachable (board : Row → Nat) (handSize : Nat) : Plc → Prop
  | init : Reachable board handSize ⟨[], [], []⟩
  | place (s : Plc) (idx : Nat) (row : Row) :
      Reachable board handSize s → idx < handSize →
      Reachable board handSize (placeCardOnRow board s idx row).1
  | ret (s : Plc) (idx : Nat) :
      Reachable board handSize s →
      Reachable board handSize (returnCardToHand s idx)

end Rows

namespace Zones

/-- A drop target of the zones variant: one of the destination zones, or the
pool zone (which unassigns a card). -/
inductive ZoneTgt
  | pool
  | dest (d : Dest)
deriving DecidableEq, Repr

/-- The `assignments` object of `game.js`: card index to zone name.  A
JavaScript object keyed by the hand indices is modelled as a function into
`Option Dest` (`none` = key absent / card in pool).  The mutator only ever
writes hand indices (see `moveCard`), so all keys lie below the hand size. -/
def Asg : Type := Nat → Option Dest

/-- The empty `assignments = {}` ledger. -/
def emptyAsg : Asg := fun _ => none

/-- `moveCard(idx, toZone)`: the DOM lookup
`document.querySelector('.hand-card[data-idx=…]')` yields an element exactly
for the indices of dealt hand cards, so an out-of-range index is a no-op
(early return).  Dropping on the pool deletes the entry; dropping on any
other zone sets it unconditionally — there is no capacity check here. -/
def moveCard (handSize : Nat) (asg : Asg) (idx : Nat) (tgt : ZoneTgt) : Asg :=
  if idx < handSize then
    match tgt with
    | .pool => fun j => if j = idx then none else asg j
    | .dest d => fun j => if j = idx then some d else asg j
  else asg

/-- `Object.keys(assignments).length`: the number of assigned hand indices. -/
def keysCount (handSize : Nat) (asg : Asg) : Nat :=
  (List.range handSize).countP (fun i => (asg i).isSome)

/-- The per-zone tally built by both validators
(`counts[r] = (counts[r] || 0) + 1` over `Object.values(assignments)`). -/
def countFor (handSize : Nat) (asg : Asg) (d : Dest) : Nat :=
  (List.range handSize).countP (fun i => asg i == some d)

/-- `validateAssignments()`: all cards assigned; then on the opening turn the
front count must not exceed 3, on a draw turn the discard count must be
exactly 1.  Returns the verdict together with the hint text it sets. -/
def validateAssignments (isInitial : Bool) (handSize : Nat) (asg : Asg) :
    Bool × String :=
  if keysCount handSize asg < handSize then
    (false, "Place all cards before confirming.")
  else if isInitial then
    if 3 < countFor handSize asg .front then
      (false, "Front takes at most 3 cards.")
    else (true, "")
  else
    if countFor handSize asg .discard ≠ 1 then
      (false, "Discard exactly 1 card.")
    else (true, "")

/-- `updateConfirmButton()`: `valid` starts as `done` (all cards assigned);
when done, the same phase checks as `validateAssignments` may veto it and set
a hint (an empty hint on success).  When not done, the hint element is left
untouched (`none`).  `$('btn-confirm').disabled = !valid`. -/
def updateConfirm (isInitial : Bool) (handSize : Nat) (asg : Asg) :
    Bool × Option String :=
  if keysCount handSize asg = handSize then
    if isInitial then
      if 3 < countFor handSize asg .front then
        (false, some "Front takes at most 3 cards.")
      else (true, some "")
    else
      if countFor handSize asg .discard ≠ 1 then
        (false, some "Discard exactly 1 card.")
      else (true, some "")
  else (false, none)

/-- The `placements` array built in `submitPlay()` from
`Object.entries(assignments)`: JavaScript enumerates integer-like keys in
ascending numeric order, so the entries are the assigned indices in order,
each paired with its zone. -/
def placementsOf (handSize : Nat) (asg : Asg) : List (Nat × Dest) :=
  (List.range handSize).filterMap (fun i => (asg i).map (fun d => (i, d)))

/-- Which zones exist as drop targets: `rowNames` is
`['front','middle','back']` on the opening turn and
`['front','middle','back','discard']` on a draw turn; the pool zone always
exists. -/
def zoneLegal (isInitial : Bool) : ZoneTgt → Prop
  | .pool => True
  | .dest d => isInitial = true → d ≠ Dest.discard

/-- Ledgers reachable from the empty `assignments` installed by `applyState`,
through drops on the zones that exist in the current phase. -/
inductive Reach (isInitial : Bool) (handSize : Nat) : Asg → Prop
  | init : Reach isInitial handSize emptyAsg
  | move (asg : Asg) (idx : Nat) (tgt : ZoneTgt) :
      Reach isInitial handSize asg → zoneLegal isInitial tgt →
      Reach isInitial handSize (moveCard handSize asg idx tgt)

/-- The client state touched by `submitPlay()`: the ledger, the confirm
button, the status bar and the placement hint. -/
structure ClientState where
  isInitial : Bool
  handSize : Nat
  assignments : Asg
  confirmDisabled : Bool
  status : Option String

/-- The body of the `/api/play` response, as far as `submitPlay` inspects it:
either `{error: …}`, or a next state for `applyState` — a new hand (with its
phase tag and card count) or a game-over report. -/
inductive PlayResp
  | err (msg : String)
  | hand (initial : Bool) (cards : Nat)
  | gameOver

/-- The `applyState` effects relevant to the ledger: a new hand replaces
`currentCards`, resets `assignments = {}` and rebuilds the UI (whose
`updateConfirmButton` call disables the confirm button for a non-empty
hand); a game-over response leaves the ledger alone and tears down the
action area. -/
def applyStateOf (cs : ClientState) : PlayResp → ClientState
  | .err _ => cs
  | .hand initial cards =>
      { cs with
        isInitial := initial
        handSize := cards
        assignments := emptyAsg
        confirmDisabled := !(updateConfirm initial cards emptyAsg).1 }
  | .gameOver => { cs with status := some "Game over!" }

/-- `submitPlay()` as a function of the response the request produces.  If
local validation fails it returns at once (the validator has set its hint,
not modelled as part of this state record).  Otherwise the confirm button is
disabled for the flight; a response carrying `error` sets the status to
`'Error: ' + error` and re-enables the confirm button, leaving `assignments`
untouched; any other response is handed to `applyState`. -/
def submitPlay (cs : ClientState) (resp : PlayResp) : ClientState :=
  if (validateAssignments cs.isInitial cs.handSize cs.assignments).1 = false then
    cs
  else
    let flight := { cs with confirmDisabled := true }
    match resp with
    | .err msg =>
        { flight with
          status := some ("Error: " ++ msg)
          confirmDisabled := false }
    | r => applyStateOf flight r

end Zones

/-- The all-zero committed board: no cards placed in prior turns (the board a
player has on the opening turn). -/
def emptyBoard : Row → Nat := fun _ => 0

namespace Zones

/-- The zone capacity table of `makeZone`:
`cap = { front: 3, middle: 5, back: 5, discard: 1 }[name]`. -/
def zoneCap : Dest → Nat
  | .front => 3
  | .middle => 5
  | .back => 5
  | .discard => 1

/-- Three cards dragged onto the front zone of a 5-card opening hand. -/
def threeFront : Asg :=
  moveCard 5
    (moveCard 5 (moveCard 5 emptyAsg 0 (ZoneTgt.dest Dest.front)) 1
      (ZoneTgt.dest Dest.front))
    2 (ZoneTgt.dest Dest.front)

/-- A fourth card dragged onto the already-full front zone. -/
def fourFront : Asg := moveCard 5 threeFront 3 (ZoneTgt.dest Dest.front)

/-- A legally completed 5-card opening hand: three front, one middle, one
back. -/
def openingFullAsg : Asg :=
  moveCard 5 (moveCard 5 threeFront 3 (ZoneTgt.dest Dest.middle)) 4
    (ZoneTgt.dest Dest.back)

/-- A draw-turn ledger with two cards placed and one still in the pool:
`{0: middle, 1: back}`. -/
def drawTwoAsg : Asg :=
  moveCard 3 (moveCard 3 emptyAsg 0 (ZoneTgt.dest Dest.middle)) 1
    (ZoneTgt.dest Dest.back)

/-- A fully assigned draw-turn ledger with an explicit discard:
`{0: discard, 1: front, 2: back}`. -/
def drawFullAsg : Asg :=
  moveCard 3
    (moveCard 3 (moveCard 3 emptyAsg 0 (ZoneTgt.dest Dest.discard)) 1
      (ZoneTgt.dest Dest.front))
    2 (ZoneTgt.dest Dest.back)

/-- A client about to submit the fully assigned draw hand, with a stale
status message on screen. -/
def csDraw : ClientState :=
  { isInitial := false
    handSize := 3
    assignments := drawFullAsg
    confirmDisabled := false
    status := some "Draw: place 2 cards and discard 1." }

end Zones

namespace Rows

/-- A draw-turn placement state with two cards on rows and one in the hand:
card 0 on the middle row, card 1 on the back row. -/
def drawTwoPlc : Plc := ⟨[], [0], [1]⟩

/-- A front row filled to capacity on a 5-card opening hand. -/
def fullFrontPlc : Plc := ⟨[0, 1, 2], [], []⟩

/-- A legally completed 5-card opening placement: three front, one middle,
one back. -/
def openingFullPlc : Plc := ⟨[0, 1, 2], [3], [4]⟩

end Rows

namespace Rows

lemma rowList_setRowList (s : Plc) (r r' : Row) (l : List Nat) :
    rowList (setRowList s r l) r' = if r' = r then l else rowList s r' := by
  cases r <;> cases r' <;> simp [setRowList, rowList]

lemma rowList_remove (s : Plc) (idx : Nat) (r : Row) :
    rowList (removeFromPlacements s idx) r =
      (rowList s r).filter (fun i => i != idx) := by
  cases r <;> simp [removeFromPlacements, rowList]

lemma getAll_eq (s : Plc) :
    getAllPlacedIndices s = s.front ++ s.middle ++ s.back := rfl

lemma getAll_remove (s : Plc) (idx : Nat) :
    getAllPlacedIndices (removeFromPlacements s idx) =
      (getAllPlacedIndices s).filter (fun i => i != idx) := by
  simp [getAllPlacedIndices, removeFromPlacements, List.filter_append]

lemma place_of_cap_le (board : Row → Nat) (s : Plc) (idx : Nat) (row : Row)
    (h : rowCap row ≤ board row + (rowList s row).length) :
    placeCardOnRow board s idx row = (s, some (rowFullHint row)) := by
  simp [placeCardOnRow, h]

lemma place_of_lt_cap (board : Row → Nat) (s : Plc) (idx : Nat) (row : Row)
    (h : board row + (rowList s row).length < rowCap row) :
    placeCardOnRow board s idx row =
      (setRowList (removeFromPlacements s idx) row
        (rowList (removeFromPlacements s idx) row ++ [idx]), none) := by
  simp [placeCardOnRow, Nat.not_le.mpr h]

/-- On success, the multiset of placed indices becomes `idx` plus the placed
indices with `idx` removed. -/
lemma getAll_place_perm (board : Row → Nat) (s : Plc) (idx : Nat) (row : Row)
    (h : board row + (rowList s row).length < rowCap row) :
    (getAllPlacedIndices (placeCardOnRow board s idx row).1).Perm
      (idx :: getAllPlacedIndices (removeFromPlacements s idx)) := by
  rw [place_of_lt_cap board s idx row h]
  set rem := removeFromPlacements s idx with hrem
  cases row
  case front =>
    simp [getAllPlacedIndices, setRowList, rowList]
  case middle =>
    simpa [getAllPlacedIndices, setRowList, rowList] using
      (@List.perm_middle Nat idx (rem.front ++ rem.middle) rem.back)
  case back =>
    simpa [getAllPlacedIndices, setRowList, rowList] using
      (List.perm_append_singleton idx (rem.front ++ rem.middle ++ rem.back))

/-- Well-formedness of the placements: every placed index is a hand index and
no index occurs twice (in particular no index occurs on two rows). -/
def WF (handSize : Nat) (s : Plc) : Prop :=
  (∀ i ∈ getAllPlacedIndices s, i < handSize) ∧ (getAllPlacedIndices s).Nodup

lemma wf_remove {handSize : Nat} {s : Plc} (h : WF handSize s) (idx : Nat) :
    WF handSize (removeFromPlacements s idx) := by
  obtain ⟨hlt, hnd⟩ := h
  constructor
  · intro i hi
    rw [getAll_remove] at hi
    exact hlt i (List.mem_of_mem_filter hi)
  · rw [getAll_remove]
    exact hnd.filter _

lemma not_mem_getAll_remove (s : Plc) (idx : Nat) :
    idx ∉ getAllPlacedIndices (removeFromPlacements s idx) := by
  rw [getAll_remove]
  intro h
  have := (List.mem_filter.mp h).2
  simp at this

/-- Every reachable placement state is well formed. -/
lemma reachable_wf {board : Row → Nat} {handSize : Nat} {s : Plc}
    (h : Reachable board handSize s) : WF handSize s := by
  induction h with
  | init => exact ⟨by simp [getAllPlacedIndices], by simp [getAllPlacedIndices]⟩
  | place s idx row _ hlt ih =>
      by_cases hcap : rowCap row ≤ board row + (rowList s row).length
      · rw [place_of_cap_le board s idx row hcap]
        exact ih
      · have hperm := getAll_place_perm board s idx row (Nat.not_le.mp hcap)
        obtain ⟨hb, hnd⟩ := wf_remove ih idx
        constructor
        · intro i hi
          rcases List.mem_cons.mp ((hperm.mem_iff).mp hi) with h1 | h2
          · exact h1 ▸ hlt
          · exact hb i h2
        · refine hperm.nodup_iff.mpr ?_
          exact List.nodup_cons.mpr ⟨not_mem_getAll_remove s idx, hnd⟩
  | ret s idx _ ih => exact wf_remove ih idx

/-- Every reachable placement state respects the row capacities: committed
cards plus pending placements never exceed the capacity of any row. -/
lemma reachable_cap {board : Row → Nat} {handSize : Nat} {s : Plc}
    (hb : ∀ r, board r ≤ rowCap r)
    (h : Reachable board handSize s) :
    ∀ r, board r + (rowList s r).length ≤ rowCap r := by
  induction h with
  | init =>
      intro r
      have : rowList (⟨[], [], []⟩ : Plc) r = [] := by cases r <;> rfl
      rw [this]
      simpa using hb r
  | place s idx row _ _ ih =>
      intro r
      by_cases hcap : rowCap row ≤ board row + (rowList s row).length
      · rw [place_of_cap_le board s idx row hcap]
        exact ih r
      · rw [place_of_lt_cap board s idx row (Nat.not_le.mp hcap)]
        simp only [rowList_setRowList]
        by_cases hr : r = row
        · subst hr
          rw [if_pos rfl, rowList_remove]
          have hf := List.length_filter_le (fun i => i != idx) (rowList s r)
          have hlt2 := Nat.not_le.mp hcap
          simp only [List.length_append, List.length_singleton]
          omega
        · rw [if_neg hr, rowList_remove]
          have hf := List.length_filter_le (fun i => i != idx) (rowList s r)
          have := ih r
          omega
  | ret s idx _ ih =>
      intro r
      show board r + (rowList (removeFromPlacements s idx) r).length ≤ rowCap r
      rw [rowList_remove]
      have hf := List.length_filter_le (fun i => i != idx) (rowList s r)
      have := ih r
      omega

/-- The number of placed cards never exceeds the hand size. -/
lemma totalPlaced_le {board : Row → Nat} {handSize : Nat} {s : Plc}
    (h : Reachable board handSize s) : totalPlaced s ≤ handSize := by
  obtain ⟨hlt, hnd⟩ := reachable_wf h
  have hlen : totalPlaced s = (getAllPlacedIndices s).length := by
    simp only [totalPlaced, getAllPlacedIndices, List.length_append]
  rw [hlen]
  have hsub : (getAllPlacedIndices s).toFinset ⊆ Finset.range handSize := by
    intro i hi
    rw [List.mem_toFinset] at hi
    exact Finset.mem_range.mpr (hlt i hi)
  calc (getAllPlacedIndices s).length
      = (getAllPlacedIndices s).toFinset.card := (List.toFinset_card_of_nodup hnd).symm
    _ ≤ (Finset.range handSize).card := Finset.card_le_card hsub
    _ = handSize := Finset.card_range handSize

/-- On a successful placement, the placed index sits on the target row and on
no other row. -/
lemma place_success_mem (board : Row → Nat) (s : Plc) (idx : Nat) (row r : Row)
    (h : (placeCardOnRow board s idx row).2 = none) :
    (idx ∈ rowList (placeCardOnRow board s idx row).1 r ↔ r = row) := by
  by_cases hcap : rowCap row ≤ board row + (rowList s row).length
  · rw [place_of_cap_le board s idx row hcap] at h
    simp at h
  · rw [place_of_lt_cap board s idx row (Nat.not_le.mp hcap)]
    rw [rowList_setRowList]
    by_cases hr : r = row
    · subst hr
      rw [if_pos rfl]
      simp
    · rw [if_neg hr, rowList_remove]
      simp [List.mem_filter, hr]

/-- Placement of one card does not move any other card across rows. -/
lemma mem_rowList_place (board : Row → Nat) (s : Plc) (idx : Nat) (row : Row)
    {j : Nat} (hj : j ≠ idx) (r : Row) :
    (j ∈ rowList (placeCardOnRow board s idx row).1 r ↔ j ∈ rowList s r) := by
  by_cases hcap : rowCap row ≤ board row + (rowList s row).length
  · rw [place_of_cap_le board s idx row hcap]
  · rw [place_of_lt_cap board s idx row (Nat.not_le.mp hcap)]
    rw [rowList_setRowList]
    by_cases hr : r = row
    · subst hr
      rw [if_pos rfl, rowList_remove]
      simp [List.mem_filter, hj]
    · rw [if_neg hr, rowList_remove]
      simp [List.mem_filter, hj]

/-- Returning one card to the hand does not move any other card. -/
lemma mem_rowList_return (s : Plc) (idx : Nat) {j : Nat} (hj : j ≠ idx)
    (r : Row) :
    (j ∈ rowList (returnCardToHand s idx) r ↔ j ∈ rowList s r) := by
  unfold returnCardToHand
  rw [rowList_remove]
  simp [List.mem_filter, hj]

/-- The destination a card currently occupies: the row whose placement list
holds its index, or `none` when the card is in the hand pool. -/
def rowDestOf (s : Plc) (j : Nat) : Option Row :=
  if j ∈ s.front then some .front
  else if j ∈ s.middle then some .middle
  else if j ∈ s.back then some .back
  else none

lemma rowDestOf_place (board : Row → Nat) (s : Plc) (idx : Nat) (row : Row)
    {j : Nat} (hj : j ≠ idx) :
    rowDestOf (placeCardOnRow board s idx row).1 j = rowDestOf s j := by
  have hf := mem_rowList_place board s idx row hj Row.front
  have hm := mem_rowList_place board s idx row hj Row.middle
  have hb := mem_rowList_place board s idx row hj Row.back
  simp only [rowList] at hf hm hb
  simp only [rowDestOf, hf, hm, hb]

lemma rowDestOf_return (s : Plc) (idx : Nat) {j : Nat} (hj : j ≠ idx) :
    rowDestOf (returnCardToHand s idx) j = rowDestOf s j := by
  have hf := mem_rowList_return s idx hj Row.front
  have hm := mem_rowList_return s idx hj Row.middle
  have hb := mem_rowList_return s idx hj Row.back
  simp only [rowList] at hf hm hb
  simp only [rowDestOf, hf, hm, hb]

/-- A duplicate-free list of hand indices of full length contains every hand
index. -/
lemma mem_of_nodup_length (l : List Nat) (n : Nat) (hlt : ∀ i ∈ l, i < n)
    (hnd : l.Nodup) (hlen : n ≤ l.length) : ∀ i < n, i ∈ l := by
  have hsub : l.toFinset ⊆ Finset.range n := fun i hi =>
    Finset.mem_range.mpr (hlt i (List.mem_toFinset.mp hi))
  have hcard : (Finset.range n).card ≤ l.toFinset.card := by
    rw [List.toFinset_card_of_nodup hnd, Finset.card_range]
    exact hlen
  have heq := Finset.eq_of_subset_of_card_le hsub hcard
  intro i hi
  exact List.mem_toFinset.mp (heq ▸ Finset.mem_range.mpr hi)

end Rows

namespace Zones

/-- Moving one card never rewrites the assignment of another card. -/
lemma moveCard_apply_ne (handSize : Nat) (asg : Asg) (idx : Nat)
    (tgt : ZoneTgt) {j : Nat} (hj : j ≠ idx) :
    moveCard handSize asg idx tgt j = asg j := by
  unfold moveCard
  by_cases hi : idx < handSize
  · cases tgt <;> simp [hi, hj]
  · simp [hi]

/-- Reachable ledgers only hold hand indices as keys. -/
lemma reach_support {isInitial : Bool} {handSize : Nat} {asg : Asg}
    (h : Reach isInitial handSize asg) :
    ∀ i, handSize ≤ i → asg i = none := by
  induction h with
  | init => intro i _; rfl
  | move asg idx tgt _ hleg ih =>
      intro i hi
      by_cases hij : i = idx
      · subst hij
        unfold moveCard
        rw [if_neg (Nat.not_lt.mpr hi)]
        exact ih i hi
      · rw [moveCard_apply_ne handSize asg idx tgt hij]
        exact ih i hi

/-- On the opening turn no discard zone exists, so no reachable ledger maps
any index to the discard. -/
lemma reach_no_discard {handSize : Nat} {asg : Asg}
    (h : Reach true handSize asg) :
    ∀ i, asg i ≠ some Dest.discard := by
  induction h with
  | init => intro i; simp [emptyAsg]
  | move asg idx tgt _ hleg ih =>
      intro i
      by_cases hij : i = idx
      · subst hij
        unfold moveCard
        by_cases hi : i < handSize
        · rw [if_pos hi]
          cases tgt with
          | pool => simp
          | dest d =>
              have hd : d ≠ Dest.discard := hleg rfl
              simp [hd]
        · rw [if_neg hi]
          exact ih i
      · rw [moveCard_apply_ne handSize asg idx tgt hij]
        exact ih i

/-- All cards are assigned exactly when the key count reaches the hand
size. -/
lemma keysCount_eq_iff (n : Nat) (asg : Asg) :
    keysCount n asg = n ↔ ∀ i < n, (asg i).isSome = true := by
  unfold keysCount
  constructor
  · intro h i hi
    exact List.countP_eq_length.mp (h.trans (List.length_range n).symm) i
      (List.mem_range.mpr hi)
  · intro h
    rw [List.countP_eq_length.mpr fun a ha => h a (List.mem_range.mp ha),
      List.length_range]

lemma zoneLegal_row (b : Bool) {d : Dest} (hd : d ≠ Dest.discard) :
    zoneLegal b (ZoneTgt.dest d) := fun _ => hd

lemma zoneLegal_draw (tgt : ZoneTgt) : zoneLegal false tgt := by
  cases tgt with
  | pool => trivial
  | dest d => exact fun h => nomatch h

lemma reach_threeFront : Reach true 5 threeFront :=
  Reach.move _ 2 _
    (Reach.move _ 1 _
      (Reach.move _ 0 _ Reach.init (zoneLegal_row true (by decide)))
      (zoneLegal_row true (by decide)))
    (zoneLegal_row true (by decide))

lemma reach_fourFront : Reach true 5 fourFront :=
  Reach.move _ 3 _ reach_threeFront (zoneLegal_row true (by decide))

lemma reach_openingFullAsg : Reach true 5 openingFullAsg :=
  Reach.move _ 4 _
    (Reach.move _ 3 _ reach_threeFront (zoneLegal_row true (by decide)))
    (zoneLegal_row true (by decide))

lemma reach_drawTwoAsg : Reach false 3 drawTwoAsg :=
  Reach.move _ 1 _ (Reach.move _ 0 _ Reach.init (zoneLegal_draw _))
    (zoneLegal_draw _)

lemma reach_drawFullAsg : Reach false 3 drawFullAsg :=
  Reach.move _ 2 _
    (Reach.move _ 1 _ (Reach.move _ 0 _ Reach.init (zoneLegal_draw _))
      (zoneLegal_draw _))
    (zoneLegal_draw _)

end Zones

namespace Rows

lemma reach_drawTwoPlc : Reachable emptyBoard 3 drawTwoPlc := by
  have h1 := @Reachable.place emptyBoard 3 ⟨[], [], []⟩ 0 Row.middle
    Reachable.init (by decide)
  have h2 := Reachable.place _ 1 Row.back h1 (by decide)
  have he : (placeCardOnRow emptyBoard
      (placeCardOnRow emptyBoard ⟨[], [], []⟩ 0 Row.middle).1 1 Row.back).1 =
      drawTwoPlc := by decide
  exact he ▸ h2

lemma reach_openingFullPlc : Reachable emptyBoard 5 openingFullPlc := by
  have h1 := @Reachable.place emptyBoard 5 ⟨[], [], []⟩ 0 Row.front
    Reachable.init (by decide)
  have h2 := Reachable.place _ 1 Row.front h1 (by decide)
  have h3 := Reachable.place _ 2 Row.front h2 (by decide)
  have h4 := Reachable.place _ 3 Row.middle h3 (by decide)
  have h5 := Reachable.place _ 4 Row.back h4 (by decide)
  have he : (placeCardOnRow emptyBoard
      (placeCardOnRow emptyBoard
        (placeCardOnRow emptyBoard
          (placeCardOnRow emptyBoard
            (placeCardOnRow emptyBoard ⟨[], [], []⟩ 0 Row.front).1
            1 Row.front).1
          2 Row.front).1
        3 Row.middle).1
      4 Row.back).1 = openingFullPlc := by decide
  exact he ▸ h5

lemma placeMoreText_ne_empty (k : Int) : placeMoreText k ≠ "" := by
  unfold placeMoreText
  intro h
  have hlen := congrArg String.length h
  simp only [String.length_append] at hlen
  have h6 : (0 : Nat) < String.length "Place " := by decide
  have h0 : String.length "" = 0 := by decide
  omega

lemma map_fst_submitBase (s : Plc) :
    (submitBase s).map Prod.fst = getAllPlacedIndices s := by
  simp [submitBase, getAllPlacedIndices, List.map_map, Function.comp_def]

lemma countP_discard_submitBase (s : Plc) :
    List.countP (fun p => p.2 == Dest.discard) (submitBase s) = 0 := by
  rw [List.countP_eq_zero]
  intro p hp
  unfold submitBase at hp
  simp only [List.mem_append, List.mem_map] at hp
  rcases hp with (⟨i, _, rfl⟩ | ⟨i, _, rfl⟩) | ⟨i, _, rfl⟩ <;> simp

end Rows

open Rows Zones

/-- C1 (counterexample): in the zones variant, `moveCard` performs no
capacity check.  Starting from the reachable opening ledger with the front
zone at its capacity of 3, dropping card 3 on the front zone sets the
mapping instead of rejecting it, so the ledger does change. -/
theorem moveCard_sets_mapping_at_capacity :
    Reach true 5 threeFront ∧
      countFor 5 threeFront Dest.front = zoneCap Dest.front ∧
      moveCard 5 threeFront 3 (ZoneTgt.dest Dest.front) 3 = some Dest.front ∧
      threeFront 3 = none :=
  ⟨reach_threeFront, by decide, by decide, by decide⟩

/-- C1 (amended): in the rows variant, `placeCardOnRow` called when the
committed cards plus current placements of the destination row already equal
its capacity leaves the placements unchanged and surfaces the row-full hint
naming the destination. -/
theorem placeCardOnRow_rejects_at_capacity (board : Row → Nat) (s : Plc)
    (idx : Nat) (row : Row)
    (h : board row + (rowList s row).length = rowCap row) :
    placeCardOnRow board s idx row = (s, some (rowFullHint row)) :=
  place_of_cap_le board s idx row (le_of_eq h.symm)

/-- C1 (witness): a full front row on an empty board rejects a fourth
card. -/
theorem placeCardOnRow_rejects_at_capacity_witness :
    placeCardOnRow emptyBoard fullFrontPlc 3 Row.front =
      (fullFrontPlc, some (rowFullHint Row.front)) :=
  placeCardOnRow_rejects_at_capacity emptyBoard fullFrontPlc 3 Row.front
    (by decide)

/-- C2 (counterexample): in the zones variant, a legal sequence of four
drops on the front zone starting from the empty opening ledger drives the
front count to 4, above the front capacity of 3. -/
theorem front_count_exceeds_capacity :
    Reach true 5 fourFront ∧
      zoneCap Dest.front < countFor 5 fourFront Dest.front :=
  ⟨reach_fourFront, by decide⟩

/-- C2 (amended): in the rows variant, every reachable placement state keeps
the committed cards plus pending placements of each row within the row
capacity, and any built submission holds at most one discard entry. -/
theorem rows_capacity_never_exceeded (board : Row → Nat) (handSize : Nat)
    (s : Plc) (hb : ∀ r, board r ≤ rowCap r)
    (h : Reachable board handSize s) :
    (∀ r, board r + (rowList s r).length ≤ rowCap r) ∧
      ∀ isInitial,
        List.countP (fun p => p.2 == Dest.discard)
          (submitPlacements isInitial handSize s) ≤ 1 := by
  refine ⟨reachable_cap hb h, ?_⟩
  intro isInitial
  unfold submitPlacements
  cases isInitial
  case false =>
    rw [if_neg Bool.false_ne_true]
    cases hfind : (List.range handSize).find?
        (fun i => !((getAllPlacedIndices s).contains i)) with
    | none => simp [hfind, countP_discard_submitBase]
    | some u =>
        simp only [hfind, List.countP_append, countP_discard_submitBase]
        simp
  case true =>
    rw [if_pos rfl]
    simp [countP_discard_submitBase]

/-- C2 (witness): the invariant instantiated on the reachable two-card draw
state over an empty board. -/
theorem rows_capacity_never_exceeded_witness :
    (∀ r, emptyBoard r + (rowList drawTwoPlc r).length ≤ rowCap r) ∧
      List.countP (fun p => p.2 == Dest.discard)
        (submitPlacements false 3 drawTwoPlc) ≤ 1 :=
  ⟨(rows_capacity_never_exceeded emptyBoard 3 drawTwoPlc
        (fun r => by cases r <;> decide)
      reach_drawTwoPlc).1,
    (rows_capacity_never_exceeded emptyBoard 3 drawTwoPlc
        (fun r => by cases r <;> decide)
      reach_drawTwoPlc).2 false⟩

/-- C3 (counterexample): in the zones and button variants, the reachable
draw-phase ledger `{0: middle, 1: back}` with index 2 unassigned is NOT
submittable: both the validator and the confirm-button recomputation reject
it, because those variants demand an explicit discard assignment. -/
theorem one_unassigned_rejected_by_zones :
    Reach false 3 drawTwoAsg ∧
      (validateAssignments false 3 drawTwoAsg).1 = false ∧
      (updateConfirm false 3 drawTwoAsg).1 = false :=
  ⟨reach_drawTwoAsg, by decide, by decide⟩

/-- C3 (amended): in the rows (auto-discard) variant, the reachable
draw-phase state placing card 0 on middle and card 1 on back with card 2
unplaced is submittable, and the built submission materialises index 2 as
the discard: `[(0, middle), (1, back), (2, discard)]`. -/
theorem rows_auto_discard_submission :
    Reachable emptyBoard 3 drawTwoPlc ∧
      confirmEnabled false 3 drawTwoPlc = true ∧
      submitPlacements false 3 drawTwoPlc =
        [(0, Dest.middle), (1, Dest.back), (2, Dest.discard)] :=
  ⟨reach_drawTwoPlc, by decide, by decide⟩

/-- C5: after any sequence of placements and returns from the empty ledger,
every placed index is a hand index and no index occupies two rows (the
concatenation of the three row lists has no duplicate); moreover a
successful placement puts the moved card on exactly the target row, removing
it from any other row in the same step. -/
theorem rows_ledger_unique_destination (board : Row → Nat) (handSize : Nat)
    (s : Plc) (h : Reachable board handSize s) :
    ((∀ i ∈ getAllPlacedIndices s, i < handSize) ∧
        (getAllPlacedIndices s).Nodup) ∧
      ∀ (t : Plc) (idx : Nat) (row r : Row),
        (placeCardOnRow board t idx row).2 = none →
        (idx ∈ rowList (placeCardOnRow board t idx row).1 r ↔ r = row) :=
  ⟨reachable_wf h, fun t idx row r ht => place_success_mem board t idx row r ht⟩

/-- C5 (witness): the invariant on the reachable two-card draw state, and
the move semantics of a successful placement from it. -/
theorem rows_ledger_unique_destination_witness :
    ((∀ i ∈ getAllPlacedIndices drawTwoPlc, i < 3) ∧
        (getAllPlacedIndices drawTwoPlc).Nodup) ∧
      (0 ∈ rowList (placeCardOnRow emptyBoard drawTwoPlc 0 Row.front).1
          Row.front ↔ Row.front = Row.front) :=
  ⟨(rows_ledger_unique_destination emptyBoard 3 drawTwoPlc
      reach_drawTwoPlc).1,
    (rows_ledger_unique_destination emptyBoard 3 drawTwoPlc
      reach_drawTwoPlc).2 drawTwoPlc 0 Row.front Row.front (by decide)⟩

/-- C4: on the opening turn with a 5-card hand, the confirm-button predicate
of the zones variant is true on a reachable ledger exactly when all five
hand indices are assigned to a non-discard zone and at most three of them
are on the front. -/
theorem opening_submittable_iff (asg : Asg) (h : Reach true 5 asg) :
    (updateConfirm true 5 asg).1 = true ↔
      ((∀ i < 5, (asg i).isSome = true ∧ asg i ≠ some Dest.discard) ∧
        countFor 5 asg Dest.front ≤ 3) := by
  have hnd := reach_no_discard h
  unfold updateConfirm
  by_cases hk : keysCount 5 asg = 5
  · rw [if_pos hk, if_pos rfl]
    by_cases hf : 3 < countFor 5 asg Dest.front
    · rw [if_pos hf]
      constructor
      · intro hfalse
        simp at hfalse
      · rintro ⟨_, hle⟩
        omega
    · rw [if_neg hf]
      constructor
      · intro _
        exact ⟨fun i hi => ⟨(keysCount_eq_iff 5 asg).mp hk i hi, hnd i⟩,
          Nat.not_lt.mp hf⟩
      · intro _
        rfl
  · rw [if_neg hk]
    constructor
    · intro hfalse
      simp at hfalse
    · rintro ⟨hall, _⟩
      exact absurd ((keysCount_eq_iff 5 asg).mpr fun i hi => (hall i hi).1) hk

/-- C4 (witness): the legally completed opening hand (three front, one
middle, one back) is submittable. -/
theorem opening_submittable_iff_witness :
    (updateConfirm true 5 openingFullAsg).1 = true :=
  (opening_submittable_iff openingFullAsg reach_openingFullAsg).mpr (by decide)

/-- C6: on a draw turn the zones validator accepts a ledger only when it
maps exactly one index to the discard; the reachable explicit assignment
`{0: discard, 1: front, 2: back}` is submittable and the submission built
from it is exactly those three pairs in index order. -/
theorem draw_requires_exactly_one_discard :
    (∀ asg : Asg, (validateAssignments false 3 asg).1 = true →
        countFor 3 asg Dest.discard = 1) ∧
      Reach false 3 drawFullAsg ∧
      (validateAssignments false 3 drawFullAsg).1 = true ∧
      placementsOf 3 drawFullAsg =
        [(0, Dest.discard), (1, Dest.front), (2, Dest.back)] := by
  refine ⟨?_, reach_drawFullAsg, by decide, by decide⟩
  intro asg h
  by_contra hd
  have hfalse : (validateAssignments false 3 asg).1 = false := by
    unfold validateAssignments
    by_cases hk : keysCount 3 asg < 3
    · rw [if_pos hk]
    · rw [if_neg hk, if_neg Bool.false_ne_true, if_pos hd]
  rw [hfalse] at h
  cases h

/-- C6 (witness): the implication instantiated on the explicit full draw
assignment. -/
theorem draw_requires_exactly_one_discard_witness :
    countFor 3 drawFullAsg Dest.discard = 1 :=
  draw_requires_exactly_one_discard.1 drawFullAsg
    draw_requires_exactly_one_discard.2.2.1

/-- C7: when local validation passed and the play request comes back with an
error field, `submitPlay` re-enables the confirm button, shows the server
message in the status bar, and leaves the assignments ledger (and everything
else in the client state) exactly as it was. -/
theorem server_error_preserves_state (cs : ClientState) (msg : String)
    (h : (validateAssignments cs.isInitial cs.handSize cs.assignments).1 =
      true) :
    submitPlay cs (PlayResp.err msg) =
      { cs with
        status := some ("Error: " ++ msg)
        confirmDisabled := false } := by
  unfold submitPlay
  rw [if_neg (by simp [h])]

/-- C7 (witness): a rejected submission of the full draw assignment keeps
the ledger and re-enables the button. -/
theorem server_error_preserves_state_witness :
    submitPlay csDraw (PlayResp.err "Invalid placement") =
      { csDraw with
        status := some ("Error: " ++ "Invalid placement")
        confirmDisabled := false } :=
  server_error_preserves_state csDraw "Invalid placement" (by decide)

/-- C8 (counterexample): in the rows variant, the reachable draw-phase state
with two of three cards placed is submittable, yet the hint recomputed by
`updateConfirmButton` is the non-empty auto-discard notice: the hint is not
empty exactly when submission is legal. -/
theorem submittable_with_nonempty_hint :
    Reachable emptyBoard 3 drawTwoPlc ∧
      confirmEnabled false 3 drawTwoPlc = true ∧
      hintText false 3 drawTwoPlc =
        "The last card will be automatically discarded." ∧
      hintText false 3 drawTwoPlc ≠ "" :=
  ⟨reach_drawTwoPlc, by decide, by decide, by decide⟩

/-- C8 (amended): on every reachable rows-variant state, the hint is empty
exactly when no card remains unplaced; on the opening phase this coincides
with submittability, but on a draw phase the submittable state (exactly one
unplaced card) shows the auto-discard notice instead. -/
theorem hint_empty_iff_all_placed (board : Row → Nat) (isInitial : Bool)
    (handSize : Nat) (s : Plc) (h : Reachable board handSize s) :
    (hintText isInitial handSize s = "" ↔ totalPlaced s = handSize) ∧
      (isInitial = true →
        (hintText isInitial handSize s = "" ↔
          confirmEnabled isInitial handSize s = true)) := by
  have htot := totalPlaced_le h
  cases isInitial
  case false =>
    refine ⟨?_, fun hft => nomatch hft⟩
    simp only [hintText]
    rw [if_neg Bool.false_ne_true]
    by_cases h1 : (1 : Int) < (handSize : Int) - (totalPlaced s : Int)
    · rw [if_pos h1]
      constructor
      · intro hh
        exact absurd hh (placeMoreText_ne_empty _)
      · intro hh
        omega
    · rw [if_neg h1]
      by_cases h2 : ((handSize : Int) - (totalPlaced s : Int)) = 1
      · rw [if_pos h2]
        constructor
        · intro hh
          exact absurd hh (by decide)
        · intro hh
          omega
      · rw [if_neg h2]
        constructor
        · intro _
          omega
        · intro _
          rfl
  case true =>
    have hiff : hintText true handSize s = "" ↔ totalPlaced s = handSize := by
      simp only [hintText]
      rw [if_pos trivial]
      by_cases h1 : (0 : Int) < (handSize : Int) - (totalPlaced s : Int)
      · rw [if_pos h1]
        constructor
        · intro hh
          exact absurd hh (placeMoreText_ne_empty _)
        · intro hh
          omega
      · rw [if_neg h1]
        constructor
        · intro _
          omega
        · intro _
          rfl
    refine ⟨hiff, fun _ => hiff.trans ?_⟩
    unfold confirmEnabled requiredCount
    rw [if_pos rfl]
    constructor
    · intro hh
      simp [hh]
    · intro hh
      simp only [beq_iff_eq] at hh
      omega

/-- C8 (witness): on the completed opening placement, the hint is empty and
this coincides with submittability. -/
theorem hint_empty_iff_all_placed_witness :
    hintText true 5 openingFullPlc = "" ↔
      confirmEnabled true 5 openingFullPlc = true :=
  (hint_empty_iff_all_placed emptyBoard true 5 openingFullPlc
    reach_openingFullPlc).2 rfl

/-- C9: on every reachable, submittable rows-variant state, the submission
built by `submitPlay` covers every hand index exactly once: the listed card
indices are duplicate-free and are exactly the indices below the hand size
(on a draw turn the one unplaced index is covered by the discard pair). -/
theorem submission_covers_hand (board : Row → Nat) (isInitial : Bool)
    (handSize : Nat) (s : Plc) (h : Reachable board handSize s)
    (he : confirmEnabled isInitial handSize s = true) :
    ((submitPlacements isInitial handSize s).map Prod.fst).Nodup ∧
      ∀ i, i ∈ (submitPlacements isInitial handSize s).map Prod.fst ↔
        i < handSize := by
  obtain ⟨hlt, hnd⟩ := reachable_wf h
  have hlen : (getAllPlacedIndices s).length = totalPlaced s := by
    simp only [getAllPlacedIndices, totalPlaced, List.length_append]
  unfold confirmEnabled at he
  rw [beq_iff_eq] at he
  unfold submitPlacements
  cases isInitial
  case true =>
    rw [if_pos rfl, map_fst_submitBase]
    unfold requiredCount at he
    rw [if_pos rfl] at he
    have hT : totalPlaced s = handSize := by exact_mod_cast he
    refine ⟨hnd, fun i => ⟨fun hi => hlt i hi, fun hi => ?_⟩⟩
    exact mem_of_nodup_length _ handSize hlt hnd (by omega) i hi
  case false =>
    unfold requiredCount at he
    rw [if_neg Bool.false_ne_true] at he
    have hT : totalPlaced s + 1 = handSize := by omega
    rw [if_neg Bool.false_ne_true]
    cases hfind : (List.range handSize).find?
        (fun i => !((getAllPlacedIndices s).contains i)) with
    | none =>
        exfalso
        have hall := List.find?_eq_none.mp hfind
        have hsub : Finset.range handSize ⊆
            (getAllPlacedIndices s).toFinset := by
          intro i hi
          rw [Finset.mem_range] at hi
          have hh := hall i (List.mem_range.mpr hi)
          rw [List.mem_toFinset]
          simpa using hh
        have hcard := Finset.card_le_card hsub
        rw [Finset.card_range, List.toFinset_card_of_nodup hnd] at hcard
        omega
    | some u =>
        have hu1 : u < handSize :=
          List.mem_range.mp (List.mem_of_find?_eq_some hfind)
        have hu2 : u ∉ getAllPlacedIndices s := by
          have hp := List.find?_some hfind
          simpa using hp
        simp only [hfind]
        rw [List.map_append, map_fst_submitBase]
        have hmap : (([(u, Dest.discard)] : List (Nat × Dest)).map Prod.fst) =
            [u] := rfl
        rw [hmap]
        have hnd2 : (getAllPlacedIndices s ++ [u]).Nodup := by
          rw [List.nodup_append]
          refine ⟨hnd, List.nodup_singleton u, ?_⟩
          intro a ha hb
          rw [List.mem_singleton] at hb
          exact hu2 (hb ▸ ha)
        refine ⟨hnd2, fun i => ⟨fun hi => ?_, fun hi => ?_⟩⟩
        · rcases List.mem_append.mp hi with h1 | h2
          · exact hlt i h1
          · rw [List.mem_singleton] at h2
            omega
        · refine mem_of_nodup_length _ handSize ?_ hnd2 ?_ i hi
          · intro a ha
            rcases List.mem_append.mp ha with h1 | h2
            · exact hlt a h1
            · rw [List.mem_singleton] at h2
              exact h2 ▸ hu1
          · rw [List.length_append]
            simp only [List.length_singleton]
            omega

/-- C9 (witness): the completed opening placement builds a submission whose
indices are duplicate-free and include index 3. -/
theorem submission_covers_hand_witness :
    ((submitPlacements true 5 openingFullPlc).map Prod.fst).Nodup ∧
      (3 ∈ (submitPlacements true 5 openingFullPlc).map Prod.fst ↔ 3 < 5) :=
  ⟨(submission_covers_hand emptyBoard true 5 openingFullPlc
      reach_openingFullPlc (by decide)).1,
    (submission_covers_hand emptyBoard true 5 openingFullPlc
      reach_openingFullPlc (by decide)).2 3⟩

/-- C10: every mutation is local to its card index: placing or returning
card `idx` in the rows variant, and moving card `idx` in the zones variant,
leaves the destination of every other card `j` unchanged. -/
theorem mutations_are_index_local (board : Row → Nat) (s : Plc) (idx : Nat)
    (row : Row) (handSize : Nat) (asg : Asg) (tgt : ZoneTgt) {j : Nat}
    (hj : j ≠ idx) :
    rowDestOf (placeCardOnRow board s idx row).1 j = rowDestOf s j ∧
      rowDestOf (returnCardToHand s idx) j = rowDestOf s j ∧
      moveCard handSize asg idx tgt j = asg j :=
  ⟨rowDestOf_place board s idx row hj, rowDestOf_return s idx hj,
    moveCard_apply_ne handSize asg idx tgt hj⟩

/-- C10 (witness): placing card 1 does not move card 0 in either variant. -/
theorem mutations_are_index_local_witness :
    rowDestOf (placeCardOnRow emptyBoard drawTwoPlc 1 Row.front).1 0 =
        rowDestOf drawTwoPlc 0 ∧
      rowDestOf (returnCardToHand drawTwoPlc 1) 0 = rowDestOf drawTwoPlc 0 ∧
      moveCard 3 drawTwoAsg 1 (ZoneTgt.dest Dest.front) 0 = drawTwoAsg 0 :=
  mutations_are_index_local emptyBoard drawTwoPlc 1 Row.front 3 drawTwoAsg
    (ZoneTgt.dest Dest.front) (by decide)

end OFC
